import Mathlib

/-!
Shallow embedding of the confidential-asset wallet engine (`src/wallet.rs`,
type `ElectrumWallet`) and of the pieces of its persistent store that the
sampled sources reference.  Machine integers (`u32`, `u64`) are embedded as
`Nat` with explicit `% 2^32` / `% 2^64` where the Rust arithmetic can wrap.
Fallible Rust functions returning `Result<T, Error>` become `Except Error T`.
-/

/-- Transaction ids are content hashes with a total order; embedded as `Nat`. -/
abbrev Txid := Nat

/-- Asset identifiers (`elements::AssetId`), embedded as `Nat`. -/
abbrev AssetId := Nat

/-- Block hashes (`elements::BlockHash`), embedded as `Nat`. -/
abbrev BlockHash := Nat

/-- Script pubkeys (`elements::Script`), embedded as `Nat`. -/
abbrev Script := Nat

/-- Derived addresses (`elements::Address`), embedded as `Nat`. -/
abbrev Address := Nat

/-- Electrum clients (`electrum_client::Client`), embedded as `Nat`. -/
abbrev Client := Nat

/-- An outpoint `elements::OutPoint { txid, vout }`. -/
structure OutPoint where
  txid : Txid
  vout : Nat
deriving DecidableEq

/-- A transaction output; only the script pubkey matters to `wallet.rs`
(the confidential commitments live behind the unblinded map). -/
structure TxOut where
  scriptPubkey : Script
deriving DecidableEq

/-- A transaction body (`elements::Transaction`): its content-hash id
(`Transaction::txid()`), the outpoints its inputs spend, and its outputs. -/
structure Transaction where
  txid : Txid
  input : List OutPoint
  output : List TxOut
deriving DecidableEq

/-- Cleartext data recovered by unblinding (`TxOutSecrets`):
asset id, value, and the two blinding factors. -/
structure Unblinded where
  asset : AssetId
  value : Nat
  assetBf : Nat
  valueBf : Nat
deriving DecidableEq

/-- Modelled from the spec: the crate's `model.rs` (types `TXO` and
`UnblindedTXO`) is absent from the sampled sources; `wallet.rs` constructs
`TXO::new(outpoint, script_pubkey, height)` and pairs it with the recovered
secrets, so a `TXO` is the outpoint, its script and the optional
confirmation height. -/
structure TXO where
  outpoint : OutPoint
  scriptPubkey : Script
  height : Option Nat
deriving DecidableEq

/-- Modelled from the spec: an unspent output together with its unblinded
secrets (`UnblindedTXO { txo, unblinded }` from the absent `model.rs`). -/
structure UnblindedTXO where
  txo : TXO
  unblinded : Unblinded
deriving DecidableEq

/-- Errors of the external `elements_miniscript` library, distinct from the
crate's own error type (the crate converts them via `From` impls). -/
inductive LibError where
  | conversion (code : Nat)
  | miniscript (code : Nat)
deriving DecidableEq

/-- The crate's `Error` enum, restricted to the variants `wallet.rs` can
produce or forward: its own `BlindingBareUnsupported` and `Generic`,
forwarded library errors, and transport errors of the electrum client. -/
inductive Error where
  | blindingBareUnsupported
  | generic (msg : String)
  | lib (e : LibError)
  | electrum (code : Nat)
deriving DecidableEq

instance {ε α : Type} [DecidableEq ε] [DecidableEq α] :
    DecidableEq (Except ε α) := fun x y =>
  match x, y with
  | .ok a, .ok b =>
    if h : a = b then .isTrue (by rw [h]) else
      .isFalse (by intro hc; cases hc; exact h rfl)
  | .error a, .error b =>
    if h : a = b then .isTrue (by rw [h]) else
      .isFalse (by intro hc; cases hc; exact h rfl)
  | .ok _, .error _ => .isFalse (by intro hc; cases hc)
  | .error _, .ok _ => .isFalse (by intro hc; cases hc)

/-- Forwarding of a library result into the crate's error type, as performed
by the `?` operator through the `From<lib error> for Error` impls. -/
def liftLib {α : Type} : Except LibError α → Except Error α
  | .ok a => .ok a
  | .error e => .error (.lib e)

/-- The blinding-key specifier of a confidential descriptor
(`elements_miniscript::confidential::Key`): slip77 shared secret, bare, or
explicit view key.  The key material is abstracted as `Nat`. -/
inductive Key where
  | slip77 (x : Nat)
  | bare (x : Nat)
  | view (x : Nat)
deriving DecidableEq

/-- Embedding of `convert_blinding_key` (`wallet.rs` lines 34-42):
slip77 and view keys pass through, the bare variant is rejected with
`Error::BlindingBareUnsupported`. -/
def convert_blinding_key : Key → Except Error Key
  | .slip77 x => .ok (.slip77 x)
  | .bare _ => .error .blindingBareUnsupported
  | .view x => .ok (.view x)

/-- A confidential descriptor: its blinding-key specifier plus the two
external-library calls `wallet.rs` makes on it, kept abstract as function
fields (the spec excludes descriptor internals as library collaborators).
`atDerivationIndex` models `descriptor.descriptor.at_derivation_index(i)`
(result abstracted as `Nat`); `mkAddress` models
`ConfidentialDescriptor::address` on the converted key and the derived
non-confidential descriptor. -/
structure ConfidentialDescriptor where
  key : Key
  atDerivationIndex : Nat → Except LibError Nat
  mkAddress : Key → Nat → Except LibError Address

/-- Embedding of `derive_address` (`wallet.rs` lines 18-32): derive the
definite descriptor at `index`, convert the blinding key (rejecting the bare
variant), and ask the library for the confidential address. -/
def derive_address (descriptor : ConfidentialDescriptor) (index : Nat) :
    Except Error Address := do
  let derivedNonConf ← liftLib (descriptor.atDerivationIndex index)
  let key ← convert_blinding_key descriptor.key
  liftLib (descriptor.mkAddress key derivedNonConf)

/-- The in-memory cache of the persistent store (`store.rs`, absent from the
sampled sources; fields are those `wallet.rs` reads and writes):
chain tip `(height, hash)`, last used derivation index, the height index
`txid -> Option height`, the transaction record `txid -> body`, and the
unblinded-output map `outpoint -> secrets`.  The Rust hash maps are embedded
as association lists. -/
structure Cache where
  tip : Nat × BlockHash
  lastIndex : Nat
  heights : List (Txid × Option Nat)
  allTxs : List (Txid × Transaction)
  unblinded : List (OutPoint × Unblinded)
deriving DecidableEq

/-- Modelled from the spec: `store.rs` is absent from the sampled sources;
the empty wallet's cache starts with a zero tip, `LastUsedIndex` at its
initial value 0 (no index ever handed out or observed with history) and all
maps empty. -/
def initialCache : Cache where
  tip := (0, 0)
  lastIndex := 0
  heights := []
  allTxs := []
  unblinded := []

/-- Embedding of `ElectrumWallet::address` (`wallet.rs` lines 144-151):
under the store's write transaction the last used index is incremented
first (`u32` arithmetic, hence mod `2^32`), then the address at the new
index is derived.  Returns the derivation result together with the cache
as left by the call. -/
def ElectrumWallet.address (descriptor : ConfidentialDescriptor) (c : Cache) :
    Except Error Address × Cache :=
  let pointer := (c.lastIndex + 1) % 2 ^ 32
  let c' := { c with lastIndex := pointer }
  (derive_address descriptor pointer, c')

/-- Modelled from the spec: `Store::spent` lives in the absent `store.rs`;
per the spec's SpentIndex it is "computed by scanning all known transaction
inputs for outpoints that reference a wallet-owned output". -/
def Cache.spent (c : Cache) : List OutPoint :=
  ((c.allTxs.map (fun kv => kv.2.input)).flatten).filter
    (fun op => (c.unblinded.lookup op).isSome)

/-- The per-transaction body of the `utxos` loop (`wallet.rs` lines 164-190):
enumerate the transaction's outputs as outpoints `(tx.txid(), vout)`, drop
those in the spent set, and keep those with an entry in the unblinded map,
packaging each as an `UnblindedTXO` carrying the transaction's height. -/
def utxosOfTx (c : Cache) (spent : List OutPoint) (tx : Transaction)
    (height : Option Nat) : List UnblindedTXO :=
  ((tx.output.enum.map
      (fun p => ((⟨tx.txid, p.1⟩ : OutPoint), p.2))).filter
    (fun p => !(spent.contains p.1))).filterMap
    (fun p =>
      match c.unblinded.lookup p.1 with
      | some ub =>
        some { txo := { outpoint := p.1, scriptPubkey := p.2.scriptPubkey,
                        height := height },
               unblinded := ub }
      | none => none)

/-- The iteration of `utxos` over the height index (`wallet.rs` lines
158-192): for each `(txid, height)` entry look up the body in the
transaction record — a missing body is the error `"txos no tx .."` — and
collect that transaction's unspent unblinded outputs. -/
def utxosLoop (c : Cache) (spent : List OutPoint) :
    List (Txid × Option Nat) → Except Error (List UnblindedTXO)
  | [] => .ok []
  | (txId, height) :: rest =>
    match c.allTxs.lookup txId with
    | none => .error (.generic ("txos no tx " ++ toString txId))
    | some tx => do
      let rest' ← utxosLoop c spent rest
      .ok (utxosOfTx c spent tx height ++ rest')

/-- The descending-by-value relation used by the final sort of `utxos`
(`wallet.rs` line 193: `b.unblinded.value.cmp(&a.unblinded.value)`). -/
def valueGe (a b : UnblindedTXO) : Prop :=
  b.unblinded.value ≤ a.unblinded.value

instance : DecidableRel valueGe := fun a b =>
  inferInstanceAs (Decidable (b.unblinded.value ≤ a.unblinded.value))

instance : IsTotal UnblindedTXO valueGe :=
  ⟨fun a b => Nat.le_total b.unblinded.value a.unblinded.value⟩

instance : IsTrans UnblindedTXO valueGe :=
  ⟨fun _ _ _ h1 h2 => Nat.le_trans h2 h1⟩

/-- Embedding of `ElectrumWallet::utxos` (`wallet.rs` lines 154-196):
collect the unspent unblinded outputs of every transaction in the height
index, then sort by strictly decreasing unblinded value (Rust's `sort_by`
is a stable sort; `insertionSort` is the stable sort of the same total
preorder, so it produces the identical list). -/
def ElectrumWallet.utxos (c : Cache) : Except Error (List UnblindedTXO) := do
  let txos ← utxosLoop c c.spent c.heights
  .ok (List.insertionSort valueGe txos)

/-- One step of the balance accumulation (`wallet.rs` line 203:
`*result.entry(asset).or_default() += value`), `u64` addition hence mod
`2^64`; an absent asset starts from the default 0. -/
def insertAdd (m : List (AssetId × Nat)) (a : AssetId) (v : Nat) :
    List (AssetId × Nat) :=
  match m with
  | [] => [(a, v % 2 ^ 64)]
  | (k, w) :: rest =>
    if k = a then (k, (w + v) % 2 ^ 64) :: rest
    else (k, w) :: insertAdd rest a v

/-- Embedding of `ElectrumWallet::balance` (`wallet.rs` lines 199-206):
start from the map holding the policy asset at 0, then add every utxo's
unblinded value under its asset id. -/
def ElectrumWallet.balance (policy : AssetId) (c : Cache) :
    Except Error (List (AssetId × Nat)) := do
  let us ← ElectrumWallet.utxos c
  .ok (us.foldl (fun m u => insertAdd m u.unblinded.asset u.unblinded.value)
    [(policy, 0)])

/-- The sort key of `transactions` (`wallet.rs` lines 216-217):
`height.unwrap_or(u32::MAX)`. -/
def heightKey (h : Option Nat) : Nat := h.getD 4294967295

/-- The comparator of `transactions` (`wallet.rs` lines 214-222) as the
"precedes or ties" relation on height-index entries: descending
`height.unwrap_or(u32::MAX)`, ties broken by descending txid. -/
def txGe (a b : Txid × Option Nat) : Prop :=
  heightKey b.2 < heightKey a.2 ∨
    (heightKey b.2 = heightKey a.2 ∧ b.1 ≤ a.1)

instance : DecidableRel txGe := fun a b =>
  inferInstanceAs
    (Decidable (heightKey b.2 < heightKey a.2 ∨
      (heightKey b.2 = heightKey a.2 ∧ b.1 ≤ a.1)))

instance : IsTotal (Txid × Option Nat) txGe where
  total a b := by
    rcases Nat.lt_trichotomy (heightKey b.2) (heightKey a.2) with h | h | h
    · exact Or.inl (Or.inl h)
    · rcases Nat.le_total b.1 a.1 with ht | ht
      · exact Or.inl (Or.inr ⟨h, ht⟩)
      · exact Or.inr (Or.inr ⟨h.symm, ht⟩)
    · exact Or.inr (Or.inl h)

instance : IsTrans (Txid × Option Nat) txGe where
  trans a b c hab hbc := by
    rcases hab with h1 | ⟨h1, t1⟩
    · rcases hbc with h2 | ⟨h2, _⟩
      · exact Or.inl (Nat.lt_trans h2 h1)
      · exact Or.inl (h2 ▸ h1)
    · rcases hbc with h2 | ⟨h2, t2⟩
      · exact Or.inl (h1 ▸ h2)
      · exact Or.inr ⟨h2.trans h1, Nat.le_trans t2 t1⟩

/-- The body-fetch loop of `transactions` (`wallet.rs` lines 224-232): for
each sorted height-index entry look up the body — a missing body is the
error `"list_tx no tx .."` — and emit `(body, height)`. -/
def transactionsLoop (c : Cache) :
    List (Txid × Option Nat) → Except Error (List (Transaction × Option Nat))
  | [] => .ok []
  | (txId, height) :: rest =>
    match c.allTxs.lookup txId with
    | none => .error (.generic ("list_tx no tx " ++ toString txId))
    | some tx => do
      let rest' ← transactionsLoop c rest
      .ok ((tx, height) :: rest')

/-- Embedding of `ElectrumWallet::transactions` (`wallet.rs` lines 209-235):
sort the height-index entries with the comparator above (stable sort, same
argument as for `utxos`), then fetch each body. -/
def ElectrumWallet.transactions (c : Cache) :
    Except Error (List (Transaction × Option Nat)) :=
  transactionsLoop c (List.insertionSort txGe c.heights)

/-- Embedding of `ElectrumWallet::sync_txs` (`wallet.rs` lines 98-112).
The `Syncer` itself lives in the absent `sync.rs`, so the outcome of
`syncer.sync(&client)` is abstracted as the function argument `syncerSync`
(ok-with-news, ok-no-news, or a typed error), and the outcome of
`build_client()` as `buildClient`.  The control flow of `sync_txs` is
embedded exactly: a failed client build is dropped by `if let Ok(client)`,
a sync error is only logged (`log::warn!`), and the function returns
`Ok(())` in every case. -/
def ElectrumWallet.sync_txs (buildClient : Except Error Client)
    (syncerSync : Client → Except Error Bool) : Except Error Unit :=
  match buildClient with
  | .ok client =>
    match syncerSync client with
    | .ok _ => .ok ()
    | .error _ => .ok ()
  | .error _ => .ok ()

/-- The raw header notification returned by
`client.block_headers_subscribe_raw()`: a height (`usize`) and the raw
header bytes, abstracted as `Nat`. -/
structure RawHeaderResponse where
  height : Nat
  header : Nat
deriving DecidableEq

/-- Embedding of `ElectrumWallet::sync_tip` (`wallet.rs` lines 115-127).
`buildClient`, the subscription call and the header deserialization
(`elements::encode::deserialize` followed by `block_hash()`) are abstracted
as function arguments; the control flow is embedded exactly: a failed
client build yields `Ok` with no change; otherwise the notified height
(cast `as u32`) is compared with the stored tip height and, whenever the
two differ — larger or smaller alike — the tip is overwritten with the
notified `(height, hash)`. -/
def ElectrumWallet.sync_tip (buildClient : Except Error Client)
    (subscribeRaw : Client → Except Error RawHeaderResponse)
    (deserializeHash : Nat → Except Error BlockHash)
    (c : Cache) : Except Error Cache :=
  match buildClient with
  | .error _ => .ok c
  | .ok client => do
    let header ← subscribeRaw client
    let height := header.height % 2 ^ 32
    let tipHeight := c.tip.1
    if height ≠ tipHeight then do
      let hash ← deserializeHash header.header
      .ok { c with tip := (height, hash) }
    else
      .ok c

/-- An operation of the facade's address/sync surface, for stating
properties across call sequences.  A sync pass's effect on the last used
index is parameterized by the highest derivation index the pass observed
with history. -/
inductive WalletOp where
  | address
  | sync (observed : Nat)

/-- Modelled from the spec: the Syncer (`sync.rs`) is absent from the
sampled sources; per the spec's discovery step, "if any index in the
lookahead tail shows history, extend LastUsedIndex" — a pass can only
extend the last used index, to the highest index observed with history
(a `u32`, hence mod `2^32`). -/
def applySync (c : Cache) (observed : Nat) : Cache :=
  { c with lastIndex := max c.lastIndex (observed % 2 ^ 32) }

/-- Run a sequence of facade operations from a cache, collecting the
derivation index consumed by each `address()` call (the index the returned
address is derived at). -/
def runOps (d : ConfidentialDescriptor) (c : Cache) :
    List WalletOp → Cache × List Nat
  | [] => (c, [])
  | .address :: rest =>
    let c' := (ElectrumWallet.address d c).2
    let r := runOps d c' rest
    (r.1, c'.lastIndex :: r.2)
  | .sync n :: rest => runOps d (applySync c n) rest

/-- The cache states visited while running a sequence of facade
operations, starting state included. -/
def traceStates (d : ConfidentialDescriptor) (c : Cache) :
    List WalletOp → List Cache
  | [] => [c]
  | .address :: rest =>
    c :: traceStates d (ElectrumWallet.address d c).2 rest
  | .sync n :: rest => c :: traceStates d (applySync c n) rest

/-- No `u32` wrap happens along a run: every visited state's last used
index is below `2^32 - 1`, so the increment in `address()` cannot wrap. -/
def NoWrap (d : ConfidentialDescriptor) (c : Cache)
    (ops : List WalletOp) : Prop :=
  ∀ s ∈ traceStates d c ops, s.lastIndex < 2 ^ 32 - 1

instance (d : ConfidentialDescriptor) (c : Cache) (ops : List WalletOp) :
    Decidable (NoWrap d c ops) :=
  inferInstanceAs (Decidable (∀ s ∈ traceStates d c ops, _ < _))

/-- Modelled from the spec: the deltas a sync pass accumulates and commits
in one write transaction (spec §4.5.6): newly fetched transaction bodies,
height-index insertions/updates, newly unblinded outputs, and the backend's
current tip. -/
structure CommitArgs where
  newTxs : List (Txid × Transaction)
  newHeights : List (Txid × Option Nat)
  newUnblinded : List (OutPoint × Unblinded)
  newTip : Nat × BlockHash

/-- Modelled from the spec: well-formedness of a commit, as guaranteed by
the sync algorithm (spec §4.5.2-§4.5.4): every height entry it writes has
its body already cached or among the newly fetched bodies, and every
unblinded entry it writes is an output of a cached or newly fetched
transaction. -/
def CommitWF (c : Cache) (a : CommitArgs) : Prop :=
  (∀ p ∈ a.newHeights, ((c.allTxs ++ a.newTxs).lookup p.1).isSome) ∧
    (∀ q ∈ a.newUnblinded, ∃ tx, (c.allTxs ++ a.newTxs).lookup q.1.txid
      = some tx ∧ q.1.vout < tx.output.length)

/-- Modelled from the spec: applying a commit to the cache (spec §4.5.6):
bodies are inserted (existing ids keep their bytes — transaction ids are
content hashes), height entries are upserted, unblinded outputs inserted,
and the tip replaced. -/
def applyCommit (c : Cache) (a : CommitArgs) : Cache where
  tip := a.newTip
  lastIndex := c.lastIndex
  heights :=
    (c.heights.filter (fun p => !((a.newHeights.lookup p.1).isSome)))
      ++ a.newHeights
  allTxs := c.allTxs ++ a.newTxs
  unblinded := c.unblinded ++ a.newUnblinded

/-- Modelled from the spec: the reorg-reconciliation removal path (spec
§4.5.5): a vanished transaction is removed entirely — its body, its height
entry, and its derived unblinded outputs. -/
def removeTx (c : Cache) (t : Txid) : Cache where
  tip := c.tip
  lastIndex := c.lastIndex
  heights := c.heights.filter (fun p => !(p.1 == t))
  allTxs := c.allTxs.filter (fun p => !(p.1 == t))
  unblinded := c.unblinded.filter (fun q => !(q.1.txid == t))

/-- The committed wallet states: those reachable from the empty wallet by
facade address calls, facade tip syncs, and (spec-modelled) Syncer commit
and reorg-removal steps. -/
inductive Reachable : Cache → Prop where
  | base : Reachable initialCache
  | address (d : ConfidentialDescriptor) {c : Cache} :
      Reachable c → Reachable (ElectrumWallet.address d c).2
  | tip {c c' : Cache} (bc : Except Error Client)
      (sr : Client → Except Error RawHeaderResponse)
      (dh : Nat → Except Error BlockHash) :
      Reachable c → ElectrumWallet.sync_tip bc sr dh c = .ok c' →
      Reachable c'
  | commit {c : Cache} (a : CommitArgs) (hwf : CommitWF c a) :
      Reachable c → Reachable (applyCommit c a)
  | reorg {c : Cache} (t : Txid) :
      Reachable c → Reachable (removeTx c t)

/-- The cache consistency invariant (spec §3): every height-index key has a
body in the transaction record, and every unblinded-output key is an
existing output of a recorded transaction. -/
def CacheInv (c : Cache) : Prop :=
  (∀ p ∈ c.heights, ((c.allTxs.lookup p.1).isSome)) ∧
    (∀ q ∈ c.unblinded, ∃ tx, c.allTxs.lookup q.1.txid = some tx ∧
      q.1.vout < tx.output.length)

/-- A concrete descriptor used by witnesses: slip77 blinding key, the library
calls are total and return the derivation index itself as the address. -/
def descSlip77 : ConfidentialDescriptor where
  key := .slip77 7
  atDerivationIndex := fun i => .ok i
  mkAddress := fun _ d => .ok d

/-- A concrete descriptor with the unsupported bare blinding-key variant. -/
def descBare : ConfidentialDescriptor where
  key := .bare 3
  atDerivationIndex := fun i => .ok i
  mkAddress := fun _ d => .ok d

def txA : Transaction where
  txid := 1
  input := []
  output := [⟨77⟩, ⟨78⟩]

def cacheA : Cache where
  tip := (100, 0)
  lastIndex := 0
  heights := [(1, some 100)]
  allTxs := [(1, txA)]
  unblinded := [(⟨1, 0⟩, ⟨5, 10000, 0, 0⟩), (⟨1, 1⟩, ⟨6, 20000, 0, 0⟩)]

def txB : Transaction where
  txid := 3
  input := []
  output := [⟨79⟩]

def cacheB : Cache where
  tip := (100, 0)
  lastIndex := 0
  heights := [(3, none), (1, some 100)]
  allTxs := [(1, txA), (3, txB)]
  unblinded := []

/-- A syncer outcome in which the pass fails with a transport error. -/
def failingSyncer : Client → Except Error Bool :=
  fun _ => .error (.electrum 7)

/-- A cache whose stored chain tip is at height 100. -/
def cacheTip100 : Cache :=
  { initialCache with tip := (100, 5) }

/-- A backend notification reporting the chain head at the lower height
99. -/
def subscribeRaw99 : Client → Except Error RawHeaderResponse :=
  fun _ => .ok ⟨99, 9⟩

/-- A header deserialization that succeeds, returning the raw bytes as the
block hash. -/
def deserializeId : Nat → Except Error BlockHash :=
  fun b => .ok b

/-- The sum of the unblinded values of the utxos carrying asset `a` — the
specification's "sum of `utxos()` grouped by asset id". -/
def sumAsset (l : List UnblindedTXO) (a : AssetId) : Nat :=
  ((l.filter (fun u => u.unblinded.asset == a)).map
    (fun u => u.unblinded.value)).sum

/-- The sum of all unblinded values in a utxo list (used to bound `u64`
accumulation away from overflow). -/
def totalValue (l : List UnblindedTXO) : Nat :=
  (l.map (fun u => u.unblinded.value)).sum

/-- Balance-map lookup with the `u64` default 0. -/
def lookupD (m : List (AssetId × Nat)) (a : AssetId) : Nat :=
  (m.lookup a).getD 0

/-- All values stored in a balance map are representable `u64` values. -/
def BoundedVals (m : List (AssetId × Nat)) : Prop :=
  ∀ p ∈ m, p.2 < 2 ^ 64

/-- The ordering the specification's sentence describes for
`transactions()`: descending height with unconfirmed (`none`) transactions
strictly first, ties — two unconfirmed or two equal heights — broken by
descending transaction id.  (This is the claim's ordering, to be compared
with the code's `heightKey`-based comparator.) -/
def specTxOrder (a b : Transaction × Option Nat) : Prop :=
  match a.2, b.2 with
  | none, none => b.1.txid ≤ a.1.txid
  | none, some _ => True
  | some _, none => False
  | some ha, some hb => hb < ha ∨ (hb = ha ∧ b.1.txid ≤ a.1.txid)

/-- The comparator the code actually sorts with, transported to the output
pairs of `transactions()`: descending `height.unwrap_or(u32::MAX)`, ties
broken by descending transaction id. -/
def codeTxOrder (a b : Transaction × Option Nat) : Prop :=
  heightKey b.2 < heightKey a.2 ∨
    (heightKey b.2 = heightKey a.2 ∧ b.1.txid ≤ a.1.txid)

/-- The transaction record keys its bodies by their own content hash (an
invariant of the real store, where bodies are inserted under
`tx.txid()`). -/
def KeysConsistent (c : Cache) : Prop :=
  ∀ p ∈ c.allTxs, p.2.txid = p.1

instance (c : Cache) : Decidable (KeysConsistent c) :=
  inferInstanceAs (Decidable (∀ p ∈ c.allTxs, p.2.txid = p.1))

/-- The pointwise relation between a height-index entry and the output
entry the `transactions` loop produces for it. -/
def loopRel (c : Cache) (p : Txid × Option Nat)
    (q : Transaction × Option Nat) : Prop :=
  c.allTxs.lookup p.1 = some q.1 ∧ q.2 = p.2

/-- A transaction confirmed at exactly height `u32::MAX`. -/
def txMax : Transaction where
  txid := 5
  input := []
  output := [⟨80⟩]

/-- A cache holding an unconfirmed transaction (id 3) and one confirmed at
height `u32::MAX = 4294967295` (id 5). -/
def cacheMax : Cache where
  tip := (4294967295, 0)
  lastIndex := 0
  heights := [(3, none), (5, some 4294967295)]
  allTxs := [(3, txB), (5, txMax)]
  unblinded := []

/-- C9: when `address()` returns an error, the last used index has
nevertheless already been incremented — the index is consumed under the
write transaction before derivation is attempted, and the state change is
not rolled back on a derivation error. -/
theorem address_error_still_consumes_index (d : ConfidentialDescriptor)
    (c : Cache) (e : Error)
    (h : (ElectrumWallet.address d c).1 = .error e) :
    (ElectrumWallet.address d c).2.lastIndex = (c.lastIndex + 1) % 2 ^ 32 :=
  rfl

/-- Witness for C9: on the empty wallet with a bare-blinding descriptor,
`address()` fails with `BlindingBareUnsupported` yet the last used index
has moved from 0 to 1. -/
theorem address_error_still_consumes_index_witness :
    (ElectrumWallet.address descBare initialCache).1
        = .error .blindingBareUnsupported ∧
      (ElectrumWallet.address descBare initialCache).2.lastIndex = 1 :=
  ⟨rfl, address_error_still_consumes_index descBare initialCache
    .blindingBareUnsupported rfl⟩

/-- C1 counterexample: on the empty wallet the first `address()` call does
not return the address derived at index 0 — it returns the one derived at
index 1, because the code increments the last used index before deriving. -/
theorem first_address_not_index_zero :
    (ElectrumWallet.address descSlip77 initialCache).1
        ≠ derive_address descSlip77 0 ∧
      (ElectrumWallet.address descSlip77 initialCache).1
        = derive_address descSlip77 1 :=
  ⟨by decide, rfl⟩

/-- C1 amended: on the empty wallet (last used index at its initial value
0) the first `address()` call returns the address derived at index 1, and
leaves the last used index at 1. -/
theorem first_address_uses_index_one (d : ConfidentialDescriptor) :
    (ElectrumWallet.address d initialCache).1 = derive_address d 1 ∧
      (ElectrumWallet.address d initialCache).2.lastIndex = 1 :=
  ⟨rfl, rfl⟩

/-- A forwarded library result is never the crate's own
`BlindingBareUnsupported` error. -/
theorem liftLib_ne_bare {α : Type} (y : Except LibError α) :
    liftLib y ≠ .error .blindingBareUnsupported := by
  cases y with
  | ok a => intro h; cases h
  | error e => intro h; cases h

/-- Computation shape of `derive_address`: its result by cases on the
library derivation and the blinding-key variant. -/
theorem derive_address_eq (d : ConfidentialDescriptor) (i : Nat) :
    derive_address d i =
      match d.atDerivationIndex i with
      | .error e => .error (.lib e)
      | .ok dn =>
        match d.key with
        | .bare _ => .error .blindingBareUnsupported
        | .slip77 x => liftLib (d.mkAddress (.slip77 x) dn)
        | .view x => liftLib (d.mkAddress (.view x) dn) := by
  unfold derive_address
  cases hA : d.atDerivationIndex i with
  | error e => rfl
  | ok dn =>
    cases hk : d.key with
    | slip77 x => rfl
    | bare x => rfl
    | view x => rfl

/-- C8: `derive_address` is a pure function of the descriptor and index (a
Lean function by construction), and the `BlindingBareUnsupported` error is
tied to the bare blinding-key variant: (i) if derivation fails with that
error the variant is bare, (ii) a bare descriptor fails with exactly that
error whenever the underlying library derivation of the index succeeds,
and (iii) slip77 and view descriptors never fail with that error. -/
theorem derive_address_unsupported_iff_bare (d : ConfidentialDescriptor)
    (i : Nat) :
    (derive_address d i = .error .blindingBareUnsupported →
        ∃ x, d.key = Key.bare x) ∧
      (∀ x r, d.key = Key.bare x → d.atDerivationIndex i = .ok r →
        derive_address d i = .error .blindingBareUnsupported) ∧
      ((∀ x, d.key ≠ Key.bare x) →
        derive_address d i ≠ .error .blindingBareUnsupported) := by
  refine ⟨?_, ?_, ?_⟩
  · intro h
    rw [derive_address_eq] at h
    cases hA : d.atDerivationIndex i with
    | error e => rw [hA] at h; cases h
    | ok dn =>
      rw [hA] at h
      cases hk : d.key with
      | slip77 x => rw [hk] at h; exact absurd h (liftLib_ne_bare _)
      | bare x => exact ⟨x, rfl⟩
      | view x => rw [hk] at h; exact absurd h (liftLib_ne_bare _)
  · intro x r hk hA
    rw [derive_address_eq, hA, hk]
  · intro hnb h
    rw [derive_address_eq] at h
    cases hA : d.atDerivationIndex i with
    | error e => rw [hA] at h; cases h
    | ok dn =>
      rw [hA] at h
      cases hk : d.key with
      | slip77 x => rw [hk] at h; exact liftLib_ne_bare _ h
      | bare x => exact hnb x hk
      | view x => rw [hk] at h; exact liftLib_ne_bare _ h

/-- Witness for C8: the concrete bare descriptor fails with
`BlindingBareUnsupported` at index 0. -/
theorem derive_address_unsupported_iff_bare_witness :
    derive_address descBare 0 = .error .blindingBareUnsupported :=
  (derive_address_unsupported_iff_bare descBare 0).2.1 3 0 rfl rfl

/-- C2 counterexample: a backend failure during the sync pass is not
surfaced — with a client that builds and a syncer pass failing with a
transport error, `sync_txs` still returns `Ok(())` (the error is only
logged). -/
theorem sync_error_swallowed :
    failingSyncer 0 = .error (.electrum 7) ∧
      ElectrumWallet.sync_txs (.ok 0) failingSyncer = .ok () :=
  ⟨rfl, rfl⟩

/-- C2 amended: the facade's `sync_txs` never surfaces an error — whatever
the outcome of building the client and of the syncer pass, it returns
`Ok(())`, discarding client-build failures and logging sync errors. -/
theorem sync_txs_always_ok (bc : Except Error Client)
    (f : Client → Except Error Bool) :
    ElectrumWallet.sync_txs bc f = .ok () := by
  cases bc with
  | error e => rfl
  | ok client =>
    cases hf : f client with
    | error e => simp only [ElectrumWallet.sync_txs, hf]
    | ok b => simp only [ElectrumWallet.sync_txs, hf]

/-- Reduction of the `Except` monad bind on a success value. -/
theorem ok_bind {ε α β : Type} (a : α) (f : α → Except ε β) :
    ((Except.ok a : Except ε α) >>= f) = f a := rfl

/-- Reduction of the `Except` monad bind on an error value. -/
theorem error_bind {ε α β : Type} (e : ε) (f : α → Except ε β) :
    ((Except.error e : Except ε α) >>= f) = .error e := rfl

/-- C3 counterexample: the stored chain tip is written by the facade's
`sync_tip` — an operation with no reorg detection whatsoever — and its
height decreases as soon as the backend reports any different, lower
height: from a stored tip at height 100, a notification at height 99 makes
`sync_tip` store `(99, ..)`. -/
theorem sync_tip_height_decreases :
    ElectrumWallet.sync_tip (.ok 0) subscribeRaw99 deserializeId cacheTip100
        = .ok { cacheTip100 with tip := (99, 9) } ∧
      (99 : Nat) < cacheTip100.tip.1 := by
  constructor
  · decide
  · decide

/-- C3 amended: the facade's `sync_tip` leaves the cache unchanged or
overwrites the tip with the backend-reported `(height, hash)` exactly when
the reported height differs from the stored one — larger or smaller alike,
with no reorg-detection guard and no monotonicity; all other cache fields
are untouched. -/
theorem sync_tip_write_characterization (bc : Except Error Client)
    (sr : Client → Except Error RawHeaderResponse)
    (dh : Nat → Except Error BlockHash) (c c' : Cache)
    (h : ElectrumWallet.sync_tip bc sr dh c = .ok c') :
    c' = c ∨ ∃ client hdr hash, bc = .ok client ∧ sr client = .ok hdr ∧
      hdr.height % 2 ^ 32 ≠ c.tip.1 ∧ dh hdr.header = .ok hash ∧
      c' = { c with tip := (hdr.height % 2 ^ 32, hash) } := by
  cases bc with
  | error e =>
    left
    simp only [ElectrumWallet.sync_tip] at h
    cases h
    rfl
  | ok client =>
    simp only [ElectrumWallet.sync_tip] at h
    cases hsr : sr client with
    | error e => rw [hsr] at h; cases h
    | ok hdr =>
      rw [hsr, ok_bind] at h
      by_cases hne : hdr.height % 2 ^ 32 ≠ c.tip.1
      · rw [if_pos hne] at h
        cases hdh : dh hdr.header with
        | error e => rw [hdh] at h; cases h
        | ok hash =>
          rw [hdh] at h
          cases h
          exact Or.inr ⟨client, hdr, hash, rfl, hsr, hne, hdh, rfl⟩
      · rw [if_neg hne] at h
        cases h
        exact Or.inl rfl

/-- Witness for C3 amended: the characterization applied to the concrete
height-99 notification on the height-100 cache. -/
theorem sync_tip_write_characterization_witness :
    ({ cacheTip100 with tip := (99, 9) } : Cache) = cacheTip100 ∨
      ∃ client hdr hash, (Except.ok 0 : Except Error Client) = .ok client ∧
        subscribeRaw99 client = .ok hdr ∧
        hdr.height % 2 ^ 32 ≠ cacheTip100.tip.1 ∧
        deserializeId hdr.header = .ok hash ∧
        ({ cacheTip100 with tip := (99, 9) } : Cache)
          = { cacheTip100 with tip := (hdr.height % 2 ^ 32, hash) } :=
  sync_tip_write_characterization (.ok 0) subscribeRaw99 deserializeId
    cacheTip100 { cacheTip100 with tip := (99, 9) } (by decide)

/-- C10: the list returned by `utxos()` is sorted by non-increasing
unblinded value — each element's value is at least every later element's
value (`valueGe`), an ordering the spec does not mention. -/
theorem utxos_sorted_by_value (c : Cache) (l : List UnblindedTXO)
    (h : ElectrumWallet.utxos c = .ok l) : l.Pairwise valueGe := by
  unfold ElectrumWallet.utxos at h
  cases hl : utxosLoop c c.spent c.heights with
  | error e => rw [hl] at h; cases h
  | ok l0 =>
    rw [hl, ok_bind] at h
    cases h
    exact List.sorted_insertionSort valueGe l0

/-- Witness for C10: the two-output cache yields a value-sorted utxo
list. -/
theorem utxos_sorted_by_value_witness :
    ([⟨⟨⟨1, 1⟩, 78, some 100⟩, ⟨6, 20000, 0, 0⟩⟩,
      ⟨⟨⟨1, 0⟩, 77, some 100⟩, ⟨5, 10000, 0, 0⟩⟩] :
        List UnblindedTXO).Pairwise valueGe :=
  utxos_sorted_by_value cacheA _ (by decide)

/-- Looking up the inserted asset after `insertAdd` yields the previous
default-0 value plus the added value, mod `2^64`. -/
theorem lookup_insertAdd_self (m : List (AssetId × Nat)) (b : AssetId)
    (v : Nat) :
    (insertAdd m b v).lookup b = some ((lookupD m b + v) % 2 ^ 64) := by
  induction m with
  | nil => simp [insertAdd, lookupD, List.lookup]
  | cons p rest ih =>
    obtain ⟨k, w⟩ := p
    by_cases hkb : k = b
    · subst hkb
      simp [insertAdd, lookupD, List.lookup]
    · have hbeq : (b == k) = false := beq_eq_false_iff_ne.mpr (Ne.symm hkb)
      simp only [insertAdd, if_neg hkb, List.lookup, hbeq, lookupD]
        at ih ⊢
      exact ih

/-- Looking up a different asset after `insertAdd` is unchanged. -/
theorem lookup_insertAdd_other (m : List (AssetId × Nat)) (b : AssetId)
    (v : Nat) (a : AssetId) (hab : a ≠ b) :
    (insertAdd m b v).lookup a = m.lookup a := by
  have habeq : (a == b) = false := beq_eq_false_iff_ne.mpr hab
  induction m with
  | nil => simp [insertAdd, List.lookup, habeq]
  | cons p rest ih =>
    obtain ⟨k, w⟩ := p
    by_cases hkb : k = b
    · subst hkb
      simp [insertAdd, List.lookup, habeq]
    · by_cases hak : a = k
      · subst hak
        simp [insertAdd, if_neg hkb, List.lookup]
      · have hakeq : (a == k) = false := beq_eq_false_iff_ne.mpr hak
        simp [insertAdd, if_neg hkb, List.lookup, hakeq, ih]

/-- `insertAdd` keeps all stored values below `2^64`. -/
theorem boundedVals_insertAdd (m : List (AssetId × Nat)) (b : AssetId)
    (v : Nat) (hB : BoundedVals m) : BoundedVals (insertAdd m b v) := by
  induction m with
  | nil =>
    intro p hp
    simp [insertAdd] at hp
    subst hp
    exact Nat.mod_lt _ (by positivity)
  | cons q rest ih =>
    obtain ⟨k, w⟩ := q
    intro p hp
    by_cases hkb : k = b
    · subst hkb
      simp only [insertAdd, if_pos rfl] at hp
      rcases List.mem_cons.mp hp with h1 | h2
      · rw [h1]
        exact Nat.mod_lt _ (by positivity)
      · exact hB p (List.mem_cons_of_mem _ h2)
    · simp only [insertAdd, if_neg hkb] at hp
      rcases List.mem_cons.mp hp with h1 | h2
      · rw [h1]
        exact hB (k, w) (List.mem_cons_self _ _)
      · have hBrest : BoundedVals rest :=
          fun q hq => hB q (List.mem_cons_of_mem _ hq)
        exact ih hBrest p h2

/-- A successful association-list lookup exhibits a member pair. -/
theorem mem_of_lookup_some {β : Type} (m : List (Txid × β)) (a : Txid)
    (w : β) (h : m.lookup a = some w) : (a, w) ∈ m := by
  induction m with
  | nil => cases h
  | cons p rest ih =>
    obtain ⟨k, x⟩ := p
    by_cases hak : a = k
    · subst hak
      simp [List.lookup] at h
      rw [h]
      exact List.mem_cons_self _ _
    · have hakeq : (a == k) = false := beq_eq_false_iff_ne.mpr hak
      simp only [List.lookup, hakeq] at h
      exact List.mem_cons_of_mem _ (ih h)

/-- Default-0 lookups in a bounded balance map are below `2^64`. -/
theorem lookupD_lt (m : List (AssetId × Nat)) (a : AssetId)
    (hB : BoundedVals m) : lookupD m a < 2 ^ 64 := by
  unfold lookupD
  cases hl : m.lookup a with
  | none => simp
  | some w =>
    simp only [Option.getD]
    exact hB (a, w) (mem_of_lookup_some m a w hl)

/-- A utxo whose asset matches contributes its value to `sumAsset`. -/
theorem sumAsset_cons_self (u : UnblindedTXO) (l : List UnblindedTXO)
    (a : AssetId) (h : u.unblinded.asset = a) :
    sumAsset (u :: l) a = u.unblinded.value + sumAsset l a := by
  simp [sumAsset, List.filter_cons, h]

/-- A utxo whose asset differs does not contribute to `sumAsset`. -/
theorem sumAsset_cons_other (u : UnblindedTXO) (l : List UnblindedTXO)
    (a : AssetId) (h : u.unblinded.asset ≠ a) :
    sumAsset (u :: l) a = sumAsset l a := by
  have hbeq : (u.unblinded.asset == a) = false := beq_eq_false_iff_ne.mpr h
  simp [sumAsset, List.filter_cons, hbeq]

/-- The balance fold computes, for every asset, the previous value plus the
asset's utxo sum, mod `2^64`. -/
theorem foldl_insertAdd_lookupD (l : List UnblindedTXO) :
    ∀ (m : List (AssetId × Nat)), BoundedVals m → ∀ (a : AssetId),
      lookupD (l.foldl
          (fun m u => insertAdd m u.unblinded.asset u.unblinded.value) m) a
        = (lookupD m a + sumAsset l a) % 2 ^ 64 := by
  induction l with
  | nil =>
    intro m hB a
    simp [sumAsset]
    exact (Nat.mod_eq_of_lt (lookupD_lt m a hB)).symm
  | cons u t ih =>
    intro m hB a
    rw [List.foldl_cons]
    rw [ih _ (boundedVals_insertAdd m _ _ hB) a]
    by_cases hau : u.unblinded.asset = a
    · rw [sumAsset_cons_self u t a hau]
      have : lookupD (insertAdd m u.unblinded.asset u.unblinded.value) a
          = (lookupD m a + u.unblinded.value) % 2 ^ 64 := by
        unfold lookupD
        rw [hau] at *
        rw [lookup_insertAdd_self m a u.unblinded.value]
        rfl
      rw [this, Nat.mod_add_mod, Nat.add_assoc]
    · rw [sumAsset_cons_other u t a (fun hc => hau hc)]
      have : lookupD (insertAdd m u.unblinded.asset u.unblinded.value) a
          = lookupD m a := by
        unfold lookupD
        rw [lookup_insertAdd_other m _ _ a (fun hc => hau hc.symm)]
      rw [this]

/-- The balance fold never removes a key. -/
theorem foldl_lookup_isSome (l : List UnblindedTXO) :
    ∀ (m : List (AssetId × Nat)) (a : AssetId), (m.lookup a).isSome →
      ((l.foldl
          (fun m u => insertAdd m u.unblinded.asset u.unblinded.value)
          m).lookup a).isSome := by
  induction l with
  | nil => intro m a h; exact h
  | cons u t ih =>
    intro m a h
    rw [List.foldl_cons]
    apply ih
    by_cases hau : a = u.unblinded.asset
    · subst hau
      rw [lookup_insertAdd_self]
      rfl
    · rw [lookup_insertAdd_other m _ _ a hau]
      exact h

/-- A single asset's utxo sum is at most the sum of all utxo values. -/
theorem sumAsset_le_totalValue (l : List UnblindedTXO) (a : AssetId) :
    sumAsset l a ≤ totalValue l := by
  induction l with
  | nil => exact Nat.le_refl 0
  | cons u t ih =>
    by_cases hau : u.unblinded.asset = a
    · rw [sumAsset_cons_self u t a hau]
      simp only [totalValue, List.map_cons, List.sum_cons]
      exact Nat.add_le_add_left ih _
    · rw [sumAsset_cons_other u t a hau]
      simp only [totalValue, List.map_cons, List.sum_cons]
      exact Nat.le_trans ih (Nat.le_add_left _ _)

/-- If no utxo carries asset `a`, the asset's sum is 0. -/
theorem sumAsset_eq_zero (l : List UnblindedTXO) (a : AssetId)
    (h : ∀ u ∈ l, u.unblinded.asset ≠ a) : sumAsset l a = 0 := by
  induction l with
  | nil => rfl
  | cons u t ih =>
    rw [sumAsset_cons_other u t a (h u (List.mem_cons_self _ _))]
    exact ih (fun v hv => h v (List.mem_cons_of_mem _ hv))

/-- C4: `balance()` returns exactly the sum of the unblinded values of
`utxos()` grouped by asset id (for every asset, the default-0 lookup of the
balance map equals that asset's utxo sum), the returned map always contains
the policy (fee) asset, and its value is 0 when no utxo carries the policy
asset.  The `u64` accumulation is exact under the no-overflow bound on the
total unblinded value. -/
theorem balance_sums_utxos_by_asset (policy : AssetId) (c : Cache)
    (l : List UnblindedTXO) (m : List (AssetId × Nat))
    (hu : ElectrumWallet.utxos c = .ok l)
    (hb : ElectrumWallet.balance policy c = .ok m)
    (hbound : totalValue l < 2 ^ 64) :
    (∀ a, lookupD m a = sumAsset l a) ∧
      (m.lookup policy).isSome ∧
      ((∀ u ∈ l, u.unblinded.asset ≠ policy) →
        m.lookup policy = some 0) := by
  have hm : m = l.foldl
      (fun m u => insertAdd m u.unblinded.asset u.unblinded.value)
      [(policy, 0)] := by
    unfold ElectrumWallet.balance at hb
    rw [hu, ok_bind] at hb
    exact (Except.ok.inj hb).symm
  have hB0 : BoundedVals [(policy, 0)] := by
    intro p hp
    simp at hp
    subst hp
    positivity
  have h1 : ∀ a, lookupD m a = sumAsset l a := by
    intro a
    rw [hm, foldl_insertAdd_lookupD l _ hB0 a]
    have h0 : lookupD [(policy, 0)] a = 0 := by
      by_cases hpa : a = policy
      · subst hpa
        simp [lookupD, List.lookup]
      · have hne : (a == policy) = false := beq_eq_false_iff_ne.mpr hpa
        simp [lookupD, List.lookup, hne]
    rw [h0, Nat.zero_add]
    exact Nat.mod_eq_of_lt
      (lt_of_le_of_lt (sumAsset_le_totalValue l a) hbound)
  have hsome : (m.lookup policy).isSome := by
    rw [hm]
    apply foldl_lookup_isSome
    simp [List.lookup]
  refine ⟨h1, hsome, ?_⟩
  intro hno
  have h1p := h1 policy
  rw [sumAsset_eq_zero l policy hno] at h1p
  cases hl2 : m.lookup policy with
  | none => rw [hl2] at hsome; cases hsome
  | some w =>
    unfold lookupD at h1p
    rw [hl2] at h1p
    simp only [Option.getD] at h1p
    rw [h1p]

/-- Witness for C4: on the two-output cache with policy asset 9, the
balance entry for asset 6 equals that asset's utxo sum and the policy
asset is present in the map. -/
theorem balance_sums_utxos_by_asset_witness :
    lookupD [(9, 0), (6, 20000), (5, 10000)] 6
        = sumAsset
          [⟨⟨⟨1, 1⟩, 78, some 100⟩, ⟨6, 20000, 0, 0⟩⟩,
           ⟨⟨⟨1, 0⟩, 77, some 100⟩, ⟨5, 10000, 0, 0⟩⟩] 6 ∧
      (([(9, 0), (6, 20000), (5, 10000)] :
          List (AssetId × Nat)).lookup 9).isSome :=
  ⟨(balance_sums_utxos_by_asset 9 cacheA _ _ (by decide) (by decide)
      (by decide)).1 6,
    (balance_sums_utxos_by_asset 9 cacheA
      [⟨⟨⟨1, 1⟩, 78, some 100⟩, ⟨6, 20000, 0, 0⟩⟩,
       ⟨⟨⟨1, 0⟩, 77, some 100⟩, ⟨5, 10000, 0, 0⟩⟩]
      [(9, 0), (6, 20000), (5, 10000)] (by decide) (by decide)
      (by decide)).2.1⟩

/-- C5 counterexample: on the cache holding an unconfirmed transaction
(id 3) and one confirmed at height `u32::MAX` (id 5), `transactions()`
puts the confirmed-at-`u32::MAX` transaction first — because the code maps
unconfirmed to the key `u32::MAX` and breaks the resulting tie by
descending txid — while the claimed ordering requires the unconfirmed
transaction strictly first.  The output violates the claimed ordering. -/
theorem transactions_spec_order_fails :
    ElectrumWallet.transactions cacheMax
        = .ok [(txMax, some 4294967295), (txB, none)] ∧
      ¬ List.Pairwise specTxOrder [(txMax, some 4294967295), (txB, none)] := by
  constructor
  · decide
  · intro hp
    exact (List.pairwise_cons.mp hp).1 (txB, none)
      (List.mem_cons_self _ _)

/-- A successful `transactions` loop pairs each height-index entry with
the looked-up body, in order. -/
theorem transactionsLoop_shape (c : Cache) :
    ∀ (hs : List (Txid × Option Nat))
      (out : List (Transaction × Option Nat)),
      transactionsLoop c hs = .ok out → List.Forall₂ (loopRel c) hs out := by
  intro hs
  induction hs with
  | nil =>
    intro out h
    cases h
    exact List.Forall₂.nil
  | cons p rest ih =>
    intro out h
    obtain ⟨t, ht⟩ := p
    simp only [transactionsLoop] at h
    cases hl : c.allTxs.lookup t with
    | none => rw [hl] at h; cases h
    | some tx =>
      rw [hl] at h
      cases hr : transactionsLoop c rest with
      | error e => rw [hr] at h; cases h
      | ok rest' =>
        rw [hr] at h
        cases h
        exact List.Forall₂.cons ⟨hl, rfl⟩ (ih rest' hr)

/-- Every member of the right list of a `Forall₂` has a related member on
the left. -/
theorem forall₂_mem_right {α β : Type} {R : α → β → Prop} :
    ∀ {l1 : List α} {l2 : List β}, List.Forall₂ R l1 l2 →
      ∀ y ∈ l2, ∃ x ∈ l1, R x y := by
  intro l1 l2 h
  induction h with
  | nil => intro y hy; cases hy
  | cons hpq htl ih =>
    intro y hy
    rcases List.mem_cons.mp hy with hq | hy'
    · subst hq
      exact ⟨_, List.mem_cons_self _ _, hpq⟩
    · obtain ⟨x, hx, hR⟩ := ih y hy'
      exact ⟨x, List.mem_cons_of_mem _ hx, hR⟩

/-- Transport of the sort comparator along the body lookup: related
entries of a consistently keyed cache compare the same. -/
theorem codeTxOrder_of_txGe (c : Cache) (hk : KeysConsistent c)
    {p x : Txid × Option Nat} {q y : Transaction × Option Nat}
    (hpq : loopRel c p q) (hxy : loopRel c x y) (hge : txGe p x) :
    codeTxOrder q y := by
  have hq1 : q.1.txid = p.1 :=
    hk (p.1, q.1) (mem_of_lookup_some _ _ _ hpq.1)
  have hy1 : y.1.txid = x.1 :=
    hk (x.1, y.1) (mem_of_lookup_some _ _ _ hxy.1)
  unfold codeTxOrder
  rw [hpq.2, hxy.2, hq1, hy1]
  exact hge

/-- Pairwise sortedness transfers from the height-index entries to the
produced `(body, height)` list. -/
theorem pairwise_codeTxOrder_of_forall₂ (c : Cache) (hk : KeysConsistent c) :
    ∀ {hs : List (Txid × Option Nat)}
      {out : List (Transaction × Option Nat)},
      List.Forall₂ (loopRel c) hs out → List.Pairwise txGe hs →
      List.Pairwise codeTxOrder out := by
  intro hs out hf
  induction hf with
  | nil => intro _; exact List.Pairwise.nil
  | cons hpq htl ih =>
    intro hp
    rcases List.pairwise_cons.mp hp with ⟨hhead, htail⟩
    refine List.Pairwise.cons ?_ (ih htail)
    intro y hy
    obtain ⟨x, hx, hRxy⟩ := forall₂_mem_right htl y hy
    exact codeTxOrder_of_txGe c hk hpq hRxy (hhead x hx)

/-- On a consistently keyed cache, projecting the loop's output back to
`(txid, height)` pairs recovers exactly the input entries, in order. -/
theorem forall₂_loopRel_map (c : Cache) (hk : KeysConsistent c) :
    ∀ (hs : List (Txid × Option Nat))
      (out : List (Transaction × Option Nat)),
      List.Forall₂ (loopRel c) hs out →
      out.map (fun q => (q.1.txid, q.2)) = hs := by
  intro hs
  induction hs with
  | nil =>
    intro out hf
    cases hf
    rfl
  | cons p hs' ih =>
    intro out hf
    rcases List.forall₂_cons_left_iff.mp hf with ⟨q, out', hpq, htl, rfl⟩
    simp only [List.map_cons, ih out' htl]
    congr 1
    have hq1 : q.1.txid = p.1 :=
      hk (p.1, q.1) (mem_of_lookup_some _ _ _ hpq.1)
    rw [hpq.2, hq1]

/-- C5 amended: `transactions()` returns ALL known transactions — the
`(txid, height)` projection of its output is a permutation of the height
index, each entry carrying the recorded body and its current height —
sorted by descending `height.unwrap_or(u32::MAX)` — so unconfirmed
transactions come first except that they tie with any transaction
confirmed exactly at height `u32::MAX` — with ties (including two
unconfirmed transactions) broken by descending transaction id. -/
theorem transactions_sorted_code_order (c : Cache) (hk : KeysConsistent c)
    (l : List (Transaction × Option Nat))
    (h : ElectrumWallet.transactions c = .ok l) :
    (l.map (fun q => (q.1.txid, q.2))).Perm c.heights ∧
      (∀ q ∈ l, c.allTxs.lookup q.1.txid = some q.1) ∧
      l.Pairwise codeTxOrder := by
  unfold ElectrumWallet.transactions at h
  have hf := transactionsLoop_shape c _ _ h
  refine ⟨?_, ?_, ?_⟩
  · rw [forall₂_loopRel_map c hk _ _ hf]
    exact List.perm_insertionSort txGe c.heights
  · intro q hq
    obtain ⟨p, hp, hR⟩ := forall₂_mem_right hf q hq
    have hq1 : q.1.txid = p.1 :=
      hk (p.1, q.1) (mem_of_lookup_some _ _ _ hR.1)
    rw [hq1]
    exact hR.1
  · exact pairwise_codeTxOrder_of_forall₂ c hk hf
      (List.sorted_insertionSort txGe c.heights)

/-- Witness for C5 amended: on the two-transaction cache the output
covers the whole height index, looks up the recorded bodies, and is
sorted by the code's comparator. -/
theorem transactions_sorted_code_order_witness :
    (([(txB, none), (txA, some 100)] :
          List (Transaction × Option Nat)).map
        (fun q => (q.1.txid, q.2))).Perm cacheB.heights ∧
      (∀ q ∈ ([(txB, none), (txA, some 100)] :
          List (Transaction × Option Nat)),
        cacheB.allTxs.lookup q.1.txid = some q.1) ∧
      List.Pairwise codeTxOrder [(txB, none), (txA, some 100)] :=
  transactions_sorted_code_order cacheB (by decide)
    [(txB, none), (txA, some 100)] (by decide)

/-- A trace of visited states always starts with the starting state. -/
theorem traceStates_head (d : ConfidentialDescriptor) (c : Cache)
    (ops : List WalletOp) : (traceStates d c ops).head? = some c := by
  cases ops with
  | nil => rfl
  | cons op rest => cases op <;> rfl

/-- Strong induction invariant for operation runs without `u32` wrap: the
visited last used indices form a non-decreasing chain, the handed-out
derivation indices form a strictly increasing chain, and every handed-out
index exceeds the starting last used index. -/
theorem runOps_monotone_strong (d : ConfidentialDescriptor) :
    ∀ (ops : List WalletOp) (c : Cache),
      (∀ s ∈ traceStates d c ops, s.lastIndex < 2 ^ 32 - 1) →
      List.Chain' (fun s t => s.lastIndex ≤ t.lastIndex)
          (traceStates d c ops) ∧
        List.Chain' (· < ·) (runOps d c ops).2 ∧
        (∀ i ∈ (runOps d c ops).2, c.lastIndex < i) := by
  intro ops
  induction ops with
  | nil =>
    intro c hw
    refine ⟨List.chain'_singleton c, List.chain'_nil, ?_⟩
    intro i hi
    cases hi
  | cons op rest ih =>
    cases op with
    | address =>
      intro c hw
      have hmem : c ∈ traceStates d c (WalletOp.address :: rest) := by
        simp only [traceStates]
        exact List.mem_cons_self _ _
      have hc := hw c hmem
      have hpow : (2 : Nat) ^ 32 = 4294967296 := by norm_num
      have h1 : c.lastIndex + 1 < 2 ^ 32 := by
        rw [hpow]
        rw [hpow] at hc
        omega
      have hL : (ElectrumWallet.address d c).2.lastIndex
          = c.lastIndex + 1 := by
        simp only [ElectrumWallet.address]
        exact Nat.mod_eq_of_lt h1
      have hwrest : ∀ s ∈ traceStates d (ElectrumWallet.address d c).2 rest,
          s.lastIndex < 2 ^ 32 - 1 := by
        intro s hs
        refine hw s ?_
        simp only [traceStates]
        exact List.mem_cons_of_mem _ hs
      obtain ⟨ch1, ch2, hgt⟩ := ih (ElectrumWallet.address d c).2 hwrest
      refine ⟨?_, ?_, ?_⟩
      · simp only [traceStates]
        refine List.chain'_cons'.mpr ⟨?_, ch1⟩
        intro y hy
        rw [traceStates_head] at hy
        cases hy
        rw [hL]
        exact Nat.le_succ _
      · show List.Chain' (· < ·)
          ((ElectrumWallet.address d c).2.lastIndex ::
            (runOps d (ElectrumWallet.address d c).2 rest).2)
        refine List.chain'_cons'.mpr ⟨?_, ch2⟩
        intro y hy
        exact hgt y (List.mem_of_mem_head? hy)
      · intro i hi
        have hi' : i ∈ (ElectrumWallet.address d c).2.lastIndex ::
            (runOps d (ElectrumWallet.address d c).2 rest).2 := hi
        rcases List.mem_cons.mp hi' with h1' | h2'
        · rw [h1', hL]
          exact Nat.lt_succ_self _
        · refine Nat.lt_trans ?_ (hgt i h2')
          rw [hL]
          exact Nat.lt_succ_self _
    | sync n =>
      intro c hw
      have hwrest : ∀ s ∈ traceStates d (applySync c n) rest,
          s.lastIndex < 2 ^ 32 - 1 := by
        intro s hs
        refine hw s ?_
        simp only [traceStates]
        exact List.mem_cons_of_mem _ hs
      obtain ⟨ch1, ch2, hgt⟩ := ih (applySync c n) hwrest
      have hle : c.lastIndex ≤ (applySync c n).lastIndex :=
        le_max_left _ _
      refine ⟨?_, ?_, ?_⟩
      · simp only [traceStates]
        refine List.chain'_cons'.mpr ⟨?_, ch1⟩
        intro y hy
        rw [traceStates_head] at hy
        cases hy
        exact hle
      · show List.Chain' (· < ·) (runOps d (applySync c n) rest).2
        exact ch2
      · intro i hi
        have hi' : i ∈ (runOps d (applySync c n) rest).2 := hi
        exact Nat.lt_of_le_of_lt hle (hgt i hi')

/-- C6: across any wrap-free sequence of `address()` and `sync()` calls,
the last used index never decreases (the visited states form a
non-decreasing chain) and no two `address()` calls return the same
derivation index. -/
theorem lastIndex_monotone_and_indices_fresh (d : ConfidentialDescriptor)
    (c : Cache) (ops : List WalletOp) (hw : NoWrap d c ops) :
    List.Chain' (fun s t => s.lastIndex ≤ t.lastIndex)
        (traceStates d c ops) ∧
      List.Pairwise (fun i j => i ≠ j) (runOps d c ops).2 := by
  obtain ⟨ch1, ch2, _⟩ := runOps_monotone_strong d ops c hw
  refine ⟨ch1, ?_⟩
  have hp : List.Pairwise (· < ·) (runOps d c ops).2 :=
    List.chain'_iff_pairwise.mp ch2
  exact hp.imp (fun hlt => Nat.ne_of_lt hlt)

/-- Witness for C6: a concrete run of two `address()` calls around one
`sync()` pass on the empty wallet. -/
theorem lastIndex_monotone_and_indices_fresh_witness :
    List.Chain' (fun s t => s.lastIndex ≤ t.lastIndex)
        (traceStates descSlip77 initialCache
          [WalletOp.address, WalletOp.sync 5, WalletOp.address]) ∧
      List.Pairwise (fun i j => i ≠ j)
        (runOps descSlip77 initialCache
          [WalletOp.address, WalletOp.sync 5, WalletOp.address]).2 :=
  lastIndex_monotone_and_indices_fresh descSlip77 initialCache
    [WalletOp.address, WalletOp.sync 5, WalletOp.address] (by decide)

/-- An association-list lookup that succeeds on the left part of an append
ignores the right part. -/
theorem lookup_append_of_isSome {β : Type} (l1 l2 : List (Txid × β))
    (a : Txid) (h : (l1.lookup a).isSome) :
    (l1 ++ l2).lookup a = l1.lookup a := by
  induction l1 with
  | nil => cases h
  | cons p rest ih =>
    obtain ⟨k, w⟩ := p
    by_cases hak : a = k
    · subst hak
      simp [List.lookup]
    · have hbeq : (a == k) = false := beq_eq_false_iff_ne.mpr hak
      simp only [List.cons_append, List.lookup, hbeq] at h ⊢
      exact ih h

/-- Filtering out the entries of another key does not change a lookup. -/
theorem lookup_filter_ne {β : Type} (l : List (Txid × β)) (a t : Txid)
    (hne : a ≠ t) :
    ((l.filter (fun p => !(p.1 == t))).lookup a) = l.lookup a := by
  induction l with
  | nil => rfl
  | cons p rest ih =>
    obtain ⟨k, w⟩ := p
    by_cases hkt : k = t
    · subst hkt
      have hak : (a == k) = false := beq_eq_false_iff_ne.mpr hne
      simp [List.filter_cons, List.lookup, hak, ih]
    · have hbeq : (k == t) = false := beq_eq_false_iff_ne.mpr hkt
      by_cases hak : a = k
      · subst hak
        simp [List.filter_cons, hbeq, List.lookup]
      · have hak2 : (a == k) = false := beq_eq_false_iff_ne.mpr hak
        simp [List.filter_cons, hbeq, List.lookup, hak2, ih]

/-- The `utxos` loop succeeds whenever every height-index entry has a body
in the transaction record. -/
theorem utxosLoop_isOk (c : Cache) (spent : List OutPoint) :
    ∀ (hs : List (Txid × Option Nat)),
      (∀ p ∈ hs, ((c.allTxs.lookup p.1).isSome)) →
      ∃ l, utxosLoop c spent hs = .ok l := by
  intro hs
  induction hs with
  | nil => exact fun _ => ⟨[], rfl⟩
  | cons p rest ih =>
    intro hall
    obtain ⟨t, ht⟩ := p
    have hsome := hall (t, ht) (List.mem_cons_self _ _)
    cases hl : c.allTxs.lookup t with
    | none => rw [hl] at hsome; cases hsome
    | some tx =>
      obtain ⟨l', hl'⟩ :=
        ih (fun q hq => hall q (List.mem_cons_of_mem _ hq))
      refine ⟨utxosOfTx c spent tx ht ++ l', ?_⟩
      simp only [utxosLoop]
      rw [hl, hl']
      rfl

/-- The `transactions` loop succeeds whenever every entry of the list has
a body in the transaction record. -/
theorem transactionsLoop_isOk (c : Cache) :
    ∀ (hs : List (Txid × Option Nat)),
      (∀ p ∈ hs, ((c.allTxs.lookup p.1).isSome)) →
      ∃ l, transactionsLoop c hs = .ok l := by
  intro hs
  induction hs with
  | nil => exact fun _ => ⟨[], rfl⟩
  | cons p rest ih =>
    intro hall
    obtain ⟨t, ht⟩ := p
    have hsome := hall (t, ht) (List.mem_cons_self _ _)
    cases hl : c.allTxs.lookup t with
    | none => rw [hl] at hsome; cases hsome
    | some tx =>
      obtain ⟨l', hl'⟩ :=
        ih (fun q hq => hall q (List.mem_cons_of_mem _ hq))
      refine ⟨(tx, ht) :: l', ?_⟩
      simp only [transactionsLoop]
      rw [hl, hl']
      rfl

/-- Under the consistency invariant, `utxos()` succeeds. -/
theorem utxos_isOk_of_inv (c : Cache) (hinv : CacheInv c) :
    ∃ l, ElectrumWallet.utxos c = .ok l := by
  obtain ⟨l0, hl0⟩ := utxosLoop_isOk c c.spent c.heights hinv.1
  refine ⟨List.insertionSort valueGe l0, ?_⟩
  unfold ElectrumWallet.utxos
  rw [hl0, ok_bind]

/-- Under the consistency invariant, `transactions()` succeeds. -/
theorem transactions_isOk_of_inv (c : Cache) (hinv : CacheInv c) :
    ∃ l, ElectrumWallet.transactions c = .ok l := by
  have hall : ∀ p ∈ List.insertionSort txGe c.heights,
      ((c.allTxs.lookup p.1).isSome) := by
    intro p hp
    exact hinv.1 p
      ((List.perm_insertionSort txGe c.heights).mem_iff.mp hp)
  obtain ⟨l, hl⟩ := transactionsLoop_isOk c _ hall
  exact ⟨l, hl⟩

/-- A successful `sync_tip` touches only the tip: the three maps are left
as they were. -/
theorem sync_tip_preserves_maps (bc : Except Error Client)
    (sr : Client → Except Error RawHeaderResponse)
    (dh : Nat → Except Error BlockHash) (c c' : Cache)
    (h : ElectrumWallet.sync_tip bc sr dh c = .ok c') :
    c'.heights = c.heights ∧ c'.allTxs = c.allTxs ∧
      c'.unblinded = c.unblinded := by
  cases bc with
  | error e =>
    simp only [ElectrumWallet.sync_tip] at h
    cases h
    exact ⟨rfl, rfl, rfl⟩
  | ok client =>
    simp only [ElectrumWallet.sync_tip] at h
    cases hsr : sr client with
    | error e => rw [hsr] at h; cases h
    | ok hdr =>
      rw [hsr, ok_bind] at h
      by_cases hne : hdr.height % 2 ^ 32 ≠ c.tip.1
      · rw [if_pos hne] at h
        cases hdh : dh hdr.header with
        | error e => rw [hdh] at h; cases h
        | ok hash =>
          rw [hdh] at h
          cases h
          exact ⟨rfl, rfl, rfl⟩
      · rw [if_neg hne] at h
        cases h
        exact ⟨rfl, rfl, rfl⟩

/-- Every committed (reachable) state satisfies the cache consistency
invariant. -/
theorem reachable_cacheInv : ∀ {c : Cache}, Reachable c → CacheInv c := by
  intro c h
  induction h with
  | base =>
    exact ⟨fun p hp => absurd hp (List.not_mem_nil p),
      fun q hq => absurd hq (List.not_mem_nil q)⟩
  | address d hr ih => exact ih
  | tip bc sr dh hr heq ih =>
    obtain ⟨e1, e2, e3⟩ := sync_tip_preserves_maps _ _ _ _ _ heq
    constructor
    · intro p hp
      rw [e1] at hp
      rw [e2]
      exact ih.1 p hp
    · intro q hq
      rw [e3] at hq
      rw [e2]
      exact ih.2 q hq
  | commit a hwf hr ih =>
    constructor
    · intro p hp
      rcases List.mem_append.mp hp with hp1 | hp2
      · have hmem := List.mem_of_mem_filter hp1
        have hsome := ih.1 p hmem
        simp only [applyCommit]
        rw [lookup_append_of_isSome _ _ _ hsome]
        exact hsome
      · exact hwf.1 p hp2
    · intro q hq
      rcases List.mem_append.mp hq with hq1 | hq2
      · obtain ⟨tx, htx, hv⟩ := ih.2 q hq1
        refine ⟨tx, ?_, hv⟩
        simp only [applyCommit]
        rw [lookup_append_of_isSome _ _ _ (by rw [htx]; rfl)]
        exact htx
      · exact hwf.2 q hq2
  | reorg t hr ih =>
    constructor
    · intro p hp
      obtain ⟨hmem, hpred⟩ := List.mem_filter.mp hp
      have hne : p.1 ≠ t := by simpa using hpred
      simp only [removeTx]
      rw [lookup_filter_ne _ _ _ hne]
      exact ih.1 p hmem
    · intro q hq
      obtain ⟨hmem, hpred⟩ := List.mem_filter.mp hq
      have hne : q.1.txid ≠ t := by simpa using hpred
      obtain ⟨tx, htx, hv⟩ := ih.2 q hmem
      refine ⟨tx, ?_, hv⟩
      simp only [removeTx]
      rw [lookup_filter_ne _ _ _ hne]
      exact htx

/-- C7: every committed wallet state satisfies the consistency invariant —
height-index keys have bodies in the transaction record and unblinded
outputs are existing outputs of recorded transactions — and consequently
`utxos()` and `transactions()` never fail with a missing-transaction
error on such states. -/
theorem committed_states_consistent (c : Cache) (h : Reachable c) :
    CacheInv c ∧ (∃ l, ElectrumWallet.utxos c = .ok l) ∧
      (∃ ts, ElectrumWallet.transactions c = .ok ts) := by
  have hinv := reachable_cacheInv h
  exact ⟨hinv, utxos_isOk_of_inv c hinv, transactions_isOk_of_inv c hinv⟩

/-- Witness for C7: the empty wallet is a committed state, and both read
operations succeed on it. -/
theorem committed_states_consistent_witness :
    CacheInv initialCache ∧
      (∃ l, ElectrumWallet.utxos initialCache = .ok l) ∧
      (∃ ts, ElectrumWallet.transactions initialCache = .ok ts) :=
  committed_states_consistent initialCache Reachable.base
